import Mathlib

/-!
Verification development for the feldera repository.

Shallow embeddings of the Rust functions named by the claims, followed by
theorems settling each claim. Machine integers are modelled as Nat or Int
with explicit bounds where overflow matters; fallible code returns Except
or Option; a Rust panic is modelled by a dedicated constructor or by none.
-/

namespace Feldera

/-! ## Directory lock: crates/feldera-storage/src/dirlock/mod.rs

The lock state is the content of the file feldera.pidlock, modelled as
an optional string (none when the file does not exist). The live process
table scan performed by process_exists is modelled by the oracle
alive : Nat -> Bool. The Except result carries the final lockfile content
on success. Both the leave-as-is branch and the stale-removal branch of
the Rust code fall through to File::create, which rewrites the file with
the decimal text of the current pid, so the final content on every
successful path is toString pid. Parse failures of the recorded pid,
including u32 overflow, are I/O-style errors in the Rust code and are
modelled by a fixed error string. -/

namespace Dirlock

/-- Errors of with_pid: ioError covers the io::Error and parse-error paths
mapped through map_err, pidfileAlreadyExists is the formatted error
naming the recorded pid. -/
inductive LockError where
  | ioError : LockError
  | pidfileAlreadyExists : Nat → LockError
deriving DecidableEq

/-- Model of str::trim: remove whitespace from both ends. -/
def trimChars (s : List Char) : List Char :=
  ((s.dropWhile Char.isWhitespace).reverse.dropWhile Char.isWhitespace).reverse

def parseDigitsAux : Option Nat → Char → Option Nat
  | none, _ => none
  | some n, c => if c.isDigit then some (n * 10 + (c.toNat - 48)) else none

/-- Model of str::parse for u32: all decimal digits, nonempty, value below
2 to the 32. -/
def parseU32 (s : List Char) : Option Nat :=
  if s = [] then none
  else
    match s.foldl parseDigitsAux (some 0) with
    | none => none
    | some n => if n < 2 ^ 32 then some n else none

def with_pid (alive : Nat → Bool) (pid : Nat) (lockfile : Option (List Char)) :
    Except LockError (List Char) :=
  match lockfile with
  | none => Except.ok (Nat.repr pid).toList
  | some contents =>
    match parseU32 (trimChars contents) with
    | none => Except.error LockError.ioError
    | some old_pid =>
      if alive old_pid then
        Except.error (LockError.pidfileAlreadyExists old_pid)
      else Except.ok (Nat.repr pid).toList

end Dirlock

/-! ## SQL array runtime: crates/sqllib/src/array.rs -/

/-- Result of a Rust function that can panic: panicked models a panic,
ok carries the normal return value. -/
inductive PanicRes (α : Type) where
  | panicked : PanicRes α
  | ok : α → PanicRes α
deriving DecidableEq

namespace SqlArray

/-- Embedding of element__ from array.rs: absent for an empty array, the
sole element (array index 0) for a one-element array, and a panic with
the ELEMENT() message for two or more elements. -/
def element__ {T : Type} (array : List T) : PanicRes (Option T) :=
  if array.isEmpty then PanicRes.ok none
  else if array.length = 1 then PanicRes.ok array.head?
  else PanicRes.panicked

/-- Embedding of the for-loop of arrays_overlapNvec_Nvec_: walks bigger,
setting has_null when an absent entry is seen, returning some true as soon
as an element of the smaller-side set is found, and ending with none when
has_null is set and some true otherwise. Membership in the Rust HashSet
built from the smaller side is list membership; the removal of None from
the set does not affect the loop, which only queries the set at non-absent
elements. -/
def overlapLoop {T : Type} [DecidableEq T] (shset : List (Option T)) :
    List (Option T) → Bool → Option Bool
  | [], has_null => if has_null then none else some true
  | e :: rest, has_null =>
    match e with
    | none => overlapLoop shset rest true
    | some x =>
      if some x ∈ shset then some true else overlapLoop shset rest has_null

/-- Body of arrays_overlapNvec_Nvec_ after the length-ordering swap: when
either side is empty the hash-set block is skipped, has_null stays false
and the function returns some true; otherwise the loop runs with has_null
starting from whether the smaller side contains an absent entry. -/
def arrays_overlapBody {T : Type} [DecidableEq T]
    (smaller bigger : List (Option T)) : Option Bool :=
  if smaller = [] ∨ bigger = [] then some true
  else overlapLoop smaller bigger (decide (none ∈ smaller))

/-- Embedding of arrays_overlapNvec_Nvec_ from array.rs, including the
initial swap that makes the first argument the shorter one. -/
def arrays_overlapNvec_Nvec_ {T : Type} [DecidableEq T]
    (first second : List (Option T)) : Option Bool :=
  if second.length < first.length then arrays_overlapBody second first
  else arrays_overlapBody first second

end SqlArray

/-! ## Output buffer configuration: crates/feldera-types/src/config.rs -/

namespace Config

/-- The usize maximum on a 64-bit platform, the default unbounded sentinel
of the two output buffer bounds. -/
def usizeMax : Nat := 2 ^ 64 - 1

structure OutputBufferConfig where
  enable_output_buffer : Bool
  max_output_buffer_time_millis : Nat
  max_output_buffer_size_records : Nat
deriving DecidableEq

/-- Embedding of the Default impl for OutputBufferConfig. -/
def OutputBufferConfig.default : OutputBufferConfig :=
  { enable_output_buffer := false
    max_output_buffer_size_records := usizeMax
    max_output_buffer_time_millis := usizeMax }

/-- The validation error message (apostrophes of the Rust text elided). -/
def outputBufferErrMsg : String :=
  "when the enable_output_buffer flag is set, one of max_output_buffer_size_records and max_output_buffer_time_millis settings must be specified"

/-- Embedding of OutputBufferConfig::validate. -/
def OutputBufferConfig.validate (c : OutputBufferConfig) : Except String Unit :=
  if c.enable_output_buffer = true ∧
      c.max_output_buffer_size_records
        = OutputBufferConfig.default.max_output_buffer_size_records ∧
      c.max_output_buffer_time_millis
        = OutputBufferConfig.default.max_output_buffer_time_millis then
    Except.error outputBufferErrMsg
  else Except.ok ()

end Config

/-! ## SQL string runtime: crates/sqllib/src/string.rs

SqlString is modelled as the list of its characters; the Rust functions
operate on the char iterator, matching this model. The i32 arguments are
modelled as Int. -/

namespace SqlString

/-- Embedding of substring3___ from string.rs: a negative count yields the
empty string; otherwise the 1-based start is clamped below 1 to the first
character and count characters are taken. -/
def substring3___ (value : List Char) (left : Int) (count : Int) : List Char :=
  if count < 0 then []
  else
    (value.drop (if left < 1 then (0 : Int) else left - 1).toNat).take count.toNat

/-- Embedding of substring2__ from string.rs: the no-count variant, which
drops the characters before the clamped 1-based start. -/
def substring2__ (value : List Char) (left : Int) : List Char :=
  value.drop (if left < 1 then (0 : Int) else left - 1).toNat

end SqlString

/-! ## In-memory storage backend: crates/dbsp/src/storage/backend/memory_impl.rs

A file is its per-file metadata: the block map (u64 offset to stored
bytes) and the tracked logical size. The HashMap of blocks is modelled by
an association list in which a later insert shadows earlier entries for
the same offset; bytes are Nat lists. StorageError covers the variants the
claims reach. -/

namespace MemBackend

inductive ErrKind where
  | unexpectedEof : ErrKind
  | notFound : ErrKind
deriving DecidableEq

inductive StorageError where
  | stdIo : ErrKind → StorageError
deriving DecidableEq

structure FileMeta where
  blocks : List (Nat × List Nat)
  size : Nat
deriving DecidableEq

/-- The metadata of a freshly created file (FileMetaData::default). -/
def emptyFile : FileMeta := { blocks := [], size := 0 }

/-- Association-list lookup modelling HashMap::get on the block map: the
most recent insert for an offset is the entry found first. -/
def blockLookup : List (Nat × List Nat) → Nat → Option (List Nat)
  | [], _ => none
  | b :: rest, o => if b.1 = o then some b.2 else blockLookup rest o

/-- Embedding of MemoryBackend::write_block on one file: inserts the block
at the offset and grows the tracked size to offset plus data length when
that exceeds it. -/
def write_block (fm : FileMeta) (offset : Nat) (data : List Nat) : FileMeta :=
  { blocks := (offset, data) :: fm.blocks
    size := if fm.size < offset + data.length then offset + data.length else fm.size }

/-- Embedding of MemoryBackend::read_block on one file: succeeds with the
stored block only when a block exists at exactly the offset and its length
equals the requested size, and fails with UnexpectedEof otherwise. -/
def read_block (fm : FileMeta) (offset : Nat) (size : Nat) :
    Except StorageError (List Nat) :=
  match blockLookup fm.blocks offset with
  | some block =>
    if size = block.length then Except.ok block
    else Except.error (StorageError.stdIo ErrKind.unexpectedEof)
  | none => Except.error (StorageError.stdIo ErrKind.unexpectedEof)

/-- A write history applied to a fresh file, in order. -/
def applyWrites (ws : List (Nat × List Nat)) : FileMeta :=
  ws.foldl (fun fm w => write_block fm w.1 w.2) emptyFile

/-- Specification-side view of a write history: the data of the last write
at the given offset, if any. -/
def lastWriteAt : List (Nat × List Nat) → Nat → Option (List Nat)
  | [], _ => none
  | w :: rest, o =>
    match lastWriteAt rest o with
    | some b => some b
    | none => if w.1 = o then some w.2 else none

end MemBackend

/-! ## Program schema: crates/pipeline-types/src/program_schema.rs

Identifiers are modelled as lists of characters. The double-quote
character is written Char.ofNat 34. Byte indexing in the Rust slice
id[1..len-1] coincides with character indexing because the first and last
characters are one-byte quotes on the branch that slices. Unicode
lowercasing is modelled by Char.toLower. -/

namespace ProgramSchema

def dqChar : Char := Char.ofNat 34

/-- Embedding of canonical_identifier: strip one leading and one trailing
double quote verbatim when the identifier starts and ends with a double
quote and has length at least 2, and lowercase the whole identifier
otherwise. -/
def canonical_identifier (id : List Char) : List Char :=
  if id.head? = some dqChar ∧ id.getLast? = some dqChar ∧ 2 ≤ id.length then
    (id.drop 1).take (id.length - 2)
  else id.map Char.toLower

/-- A relation (table or view); the fields list is irrelevant to the name
rule and is omitted. -/
structure Relation where
  name : List Char
  case_sensitive : Bool
deriving DecidableEq

/-- Embedding of Relation::name(): case-sensitive names are returned as
is, case-insensitive names are lowercased. -/
def Relation.canonicalName (r : Relation) : List Char :=
  if r.case_sensitive then r.name else r.name.map Char.toLower

end ProgramSchema

/-! ## Benchmark row synthesis: crates/cli/src/bench.rs

generate_rows loops over relation.fields and, per field, renders a value
drawn from the random number generator followed by a comma, or hits
unimplemented (a panic) for any column type other than BIGINT, VARCHAR
and DECIMAL. The schema types come from the published pipeline-types
crate used by the cli, where a column type carries its type name as a
string. The rand library lives outside the repository: its draws are
modelled by an oracle assigning to each field position the value of
rng.gen_range(0..1024), the 16-character alphanumeric sample, and the
text rendering of the random 64-bit float; the library contracts (range
bound, length and alphanumeric character class) enter the theorem as
hypotheses. A panic is modelled by none. -/

namespace CliBench

structure ColumnType where
  typ : String
deriving DecidableEq

structure Field where
  name : String
  columntype : ColumnType
deriving DecidableEq

structure Relation where
  name : String
  fields : List Field
deriving DecidableEq

/-- One oracle draw: the values the generator would produce for a single
field, whichever arm consumes them. -/
structure FieldDraw where
  intDraw : Nat
  strDraw : List Char
  decDraw : List Char

def commaChar : Char := Char.ofNat 44

/-- Embedding of one arm of the match over field.columntype.typ in
generate_rows: the rendered field text followed by a comma, or none for
the unimplemented panic. -/
def generate_field (d : FieldDraw) (typ : String) : Option (List Char) :=
  if typ = ("BIGINT" : String) then some ((Nat.repr d.intDraw).toList ++ [commaChar])
  else if typ = ("VARCHAR" : String) then some (d.strDraw ++ [commaChar])
  else if typ = ("DECIMAL" : String) then some (d.decDraw ++ [commaChar])
  else none

/-- Embedding of the for-loop over relation.fields in generate_rows: the
fields are rendered left to right, field i consuming draw k + i, and the
first column with an unsupported type aborts the whole row (none). -/
def generate_fields (draws : Nat → FieldDraw) : Nat → List Field → Option (List Char)
  | _, [] => some []
  | k, f :: rest =>
    match generate_field (draws k) f.columntype.typ with
    | none => none
    | some chunk =>
      match generate_fields draws (k + 1) rest with
      | none => none
      | some s => some (chunk ++ s)

/-- One loop iteration of generate_rows: render all fields, then pop the
final character (the trailing comma). -/
def generate_row (draws : Nat → FieldDraw) (rel : Relation) : Option (List Char) :=
  (generate_fields draws 0 rel.fields).map List.dropLast

/-- The column types generate_rows supports. -/
def goodTypes : List String := ["BIGINT", "VARCHAR", "DECIMAL"]

/-- Specification-side rendering of one supported field from its draw. -/
def renderField (d : FieldDraw) (typ : String) : List Char :=
  if typ = ("BIGINT" : String) then (Nat.repr d.intDraw).toList ++ [commaChar]
  else if typ = ("VARCHAR" : String) then d.strDraw ++ [commaChar]
  else d.decDraw ++ [commaChar]

/-- Specification-side rendering of a whole row of supported fields. -/
def renderFields (draws : Nat → FieldDraw) : Nat → List Field → List Char
  | _, [] => []
  | k, f :: rest => renderField (draws k) f.columntype.typ ++ renderFields draws (k + 1) rest

end CliBench

/-! ## Runtime layout: crates/dbsp/src/circuit/dbsp_handle.rs

Network addresses are an abstract type A with decidable equality. A Rust
Range of worker ids is modelled by its two endpoints. The asserts
assert_ne(n_workers, 0) in new_solo and in the multihost loop are panics,
modelled by an Option layer around the Result: none is a panic, some
carries the Ok or Err value. -/

namespace DbspHandle

structure Host (A : Type) where
  address : A
  workers_lo : Nat
  workers_hi : Nat
deriving DecidableEq

inductive Layout (A : Type) where
  | Solo : Nat → Layout A
  | Multihost : List (Host A) → Nat → Layout A
deriving DecidableEq

inductive LayoutError (A : Type) where
  | DuplicateAddress : A → LayoutError A
  | NoSuchAddress : A → LayoutError A
deriving DecidableEq

/-- Embedding of Layout::new_solo, whose assert on a zero worker count is
a panic (none). -/
def new_solo {A : Type} (n_workers : Nat) : Option (Layout A) :=
  if n_workers = 0 then none else some (Layout.Solo n_workers)

/-- Embedding of the HashSet-based duplicate scan: find the first element
of params whose address was already seen. -/
def firstDuplicate {A : Type} [DecidableEq A] (seen : List A) :
    List (A × Nat) → Option A
  | [] => none
  | p :: rest => if p.1 ∈ seen then some p.1 else firstDuplicate (p.1 :: seen) rest

/-- Specification-side duplicate scan over a plain address list: the first
address that repeats an earlier one. -/
def firstRepeatedAddr {A : Type} [DecidableEq A] (seen : List A) :
    List A → Option A
  | [] => none
  | a :: rest => if a ∈ seen then some a else firstRepeatedAddr (a :: seen) rest

/-- Embedding of Iterator::position over params for the local address. -/
def findPosition {A : Type} [DecidableEq A] (local_address : A) :
    List (A × Nat) → Option Nat
  | [] => none
  | p :: rest =>
    if p.1 = local_address then some 0
    else (findPosition local_address rest).map (fun n => n + 1)

/-- Embedding of the host-building loop of new_multihost: each host takes
the contiguous worker range starting at the running total, and a zero
worker count trips the assert (none). -/
def buildHosts {A : Type} (total : Nat) : List (A × Nat) → Option (List (Host A))
  | [] => some []
  | p :: rest =>
    if p.2 = 0 then none
    else (buildHosts (total + p.2) rest).map
      (fun hs => { address := p.1, workers_lo := total, workers_hi := total + p.2 } :: hs)

/-- Embedding of Layout::new_multihost: duplicate-address check, then the
local-address lookup, then either the one-host Solo degeneration or the
multihost construction. -/
def new_multihost {A : Type} [DecidableEq A] (params : List (A × Nat))
    (local_address : A) : Option (Except (LayoutError A) (Layout A)) :=
  match firstDuplicate [] params with
  | some dup => some (Except.error (LayoutError.DuplicateAddress dup))
  | none =>
    match findPosition local_address params with
    | none => some (Except.error (LayoutError.NoSuchAddress local_address))
    | some local_host_idx =>
      if params.length = 1 then
        match params.head? with
        | some p => (new_solo p.2).map Except.ok
        | none => none
      else
        (buildHosts 0 params).map
          (fun hosts => Except.ok (Layout.Multihost hosts local_host_idx))

end DbspHandle

/-! ## Decimal casts: crates/sqllib/src/casts.rs

A rust_decimal value is a signed integer mantissa together with a decimal
scale; its numeric value is mantissa divided by 10 to the scale. Rounding
toward zero is Int.tdiv, the truncated division. The panic on precision
overflow is modelled by none. checked_ilog10 plus one, with 0 digits for
a zero integer part, is digitCount, written with structural fuel so that
it evaluates; the unwrap_or branch for the absolute value of the i128
minimum cannot arise in the unbounded model. -/

namespace Casts

structure Decimal where
  mantissa : Int
  scale : Nat
deriving DecidableEq

/-- Numeric value of a decimal. -/
def Decimal.toRat (d : Decimal) : ℚ := (d.mantissa : ℚ) / (10 : ℚ) ^ d.scale

/-- Embedding of round_dp_with_strategy with RoundingStrategy::ToZero: no
change when the value already has at most dp fractional digits, and a
truncating division of the mantissa otherwise. -/
def round_dp_to_zero (d : Decimal) (dp : Nat) : Decimal :=
  if d.scale ≤ dp then d
  else { mantissa := d.mantissa.tdiv ((10 : Int) ^ (d.scale - dp)), scale := dp }

/-- Embedding of Decimal::trunc: the integer part, at scale 0. -/
def Decimal.truncD (d : Decimal) : Decimal :=
  { mantissa := d.mantissa.tdiv ((10 : Int) ^ d.scale), scale := 0 }

/-- Decimal digit counter with structural fuel; digitsAux fuel n is the
digit count of n whenever n fits in the fuel. -/
def digitsAux : Nat → Nat → Nat
  | 0, _ => 0
  | fuel + 1, n => if n = 0 then 0 else digitsAux fuel (n / 10) + 1

/-- Number of decimal digits of n, with 0 digits for 0: the model of
checked_ilog10().map(+1).unwrap_or(0). -/
def digitCount (n : Nat) : Nat := digitsAux n n

/-- Embedding of cast_to_decimal_decimal: round toward zero to the target
scale, then panic (none) when the digit count of the integer part exceeds
precision minus scale. -/
def cast_to_decimal_decimal (value : Decimal) (precision scale : Nat) :
    Option Decimal :=
  let result := round_dp_to_zero value scale
  if precision - scale < digitCount result.truncD.mantissa.natAbs then none
  else some result

/-- Specification-side truncation toward zero of a rational: floor for
nonnegative values, ceiling for negative ones. -/
def ratTrunc (q : ℚ) : ℤ := if 0 ≤ q then ⌊q⌋ else ⌈q⌉

/-- Specification-side rounding of a rational to n fractional digits with
round-toward-zero. -/
def truncToScale (q : ℚ) (n : Nat) : ℚ :=
  ((ratTrunc (q * (10 : ℚ) ^ n) : ℤ) : ℚ) / (10 : ℚ) ^ n

end Casts

/-! ## Theorems -/

/-- C1: evaluation of the code at the failing input. The lock file holds
the decimal id 42 of the current process, and process 42 is alive in the
process table (the current process always is, being the one doing the
scan). The claim, and the documentation of LockedDirectory::new (an error
only when the file was created by a different process), say the call
succeeds leaving the file holding 42; the code instead takes the
process_exists branch first and fails with the pidfile-already-exists
error, so the leave-untouched branch for the own pid is unreachable for a
live process. -/
theorem with_pid_own_live_pid_errors :
    Dirlock.with_pid (fun p => p == 42) 42 (some ((Nat.repr 42).toList)) =
      Except.error (Dirlock.LockError.pidfileAlreadyExists 42) := rfl

/-- C6: element on an array is absent for an empty array, the sole element
for a one-element array, and a panic for two or more elements; the panic
branch is hit exactly when the length is not at most 1. -/
theorem element_spec {T : Type} (array : List T) :
    (array = [] → SqlArray.element__ array = PanicRes.ok none) ∧
    (∀ x, array = [x] → SqlArray.element__ array = PanicRes.ok (some x)) ∧
    (2 ≤ array.length → SqlArray.element__ array = PanicRes.panicked) ∧
    (SqlArray.element__ array = PanicRes.panicked ↔ ¬ array.length ≤ 1) := by
  rcases array with _ | ⟨x, _ | ⟨y, rest⟩⟩ <;>
    simp [SqlArray.element__]

/-- C6 witness: the three concrete examples from the specification. -/
theorem element_spec_witness :
    SqlArray.element__ ([] : List Nat) = PanicRes.ok none ∧
    SqlArray.element__ ([5] : List Nat) = PanicRes.ok (some 5) ∧
    SqlArray.element__ ([5, 6] : List Nat) = PanicRes.panicked :=
  ⟨(element_spec ([] : List Nat)).1 rfl,
    (element_spec ([5] : List Nat)).2.1 5 rfl,
    (element_spec ([5, 6] : List Nat)).2.2.1 (by norm_num)⟩

/-- C7: validate returns a configuration error exactly when output
buffering is enabled and both bounds still equal the default unbounded
sentinel usizeMax, and returns success in every other configuration. -/
theorem output_buffer_validate_spec (c : Config.OutputBufferConfig) :
    ((∃ msg, Config.OutputBufferConfig.validate c = Except.error msg) ↔
      (c.enable_output_buffer = true ∧
        c.max_output_buffer_size_records = Config.usizeMax ∧
        c.max_output_buffer_time_millis = Config.usizeMax)) ∧
    (Config.OutputBufferConfig.validate c = Except.ok () ↔
      ¬(c.enable_output_buffer = true ∧
        c.max_output_buffer_size_records = Config.usizeMax ∧
        c.max_output_buffer_time_millis = Config.usizeMax)) := by
  unfold Config.OutputBufferConfig.validate
  by_cases h : c.enable_output_buffer = true ∧
      c.max_output_buffer_size_records = Config.usizeMax ∧
      c.max_output_buffer_time_millis = Config.usizeMax
  · rw [if_pos (by exact h)]
    simp [h]
  · rw [if_neg (by exact h)]
    simp [h]

/-- C7 witness: the enabled-with-both-defaults configuration errs, and
changing one bound restores success. -/
theorem output_buffer_validate_spec_witness :
    (∃ msg,
      Config.OutputBufferConfig.validate
        { enable_output_buffer := true
          max_output_buffer_time_millis := Config.usizeMax
          max_output_buffer_size_records := Config.usizeMax } = Except.error msg) ∧
    Config.OutputBufferConfig.validate
      { enable_output_buffer := true
        max_output_buffer_time_millis := 100
        max_output_buffer_size_records := Config.usizeMax } = Except.ok () :=
  ⟨(output_buffer_validate_spec _).1.mpr ⟨rfl, rfl, rfl⟩,
    (output_buffer_validate_spec _).2.mpr
      (by intro h; exact absurd h.2.2 (by decide))⟩

/-- C10: substring semantics: a start below 1 clamps to the first
character (both with and without a count), a negative count yields the
empty string, a count reaching past the end of the string is clamped to
the end (agreeing with the no-count variant), and substring of hello from
position 3 with no count is llo. -/
theorem substring_spec (value : List Char) (left count : Int) :
    (left < 1 →
      SqlString.substring3___ value left count = SqlString.substring3___ value 1 count ∧
      SqlString.substring2__ value left = SqlString.substring2__ value 1) ∧
    (count < 0 → SqlString.substring3___ value left count = []) ∧
    (0 ≤ count → (value.length : Int) ≤ (if left < 1 then 0 else left - 1) + count →
      SqlString.substring3___ value left count = SqlString.substring2__ value left) ∧
    SqlString.substring2__ ("hello".toList) 3 = "llo".toList := by
  refine ⟨?_, ?_, ?_, by rfl⟩
  · intro h
    constructor
    · unfold SqlString.substring3___
      by_cases hc : count < 0
      · rw [if_pos hc, if_pos hc]
      · rw [if_neg hc, if_neg hc, if_pos h,
          if_neg (show ¬((1 : Int) < 1) by norm_num)]
        norm_num
    · unfold SqlString.substring2__
      rw [if_pos h, if_neg (show ¬((1 : Int) < 1) by norm_num)]
      norm_num
  · intro h
    unfold SqlString.substring3___
    rw [if_pos h]
  · intro h0 hlen
    unfold SqlString.substring3___ SqlString.substring2__
    rw [if_neg (not_lt.mpr h0)]
    apply List.take_of_length_le
    rw [List.length_drop]
    rcases lt_or_ge left 1 with hl | hl
    · rw [if_pos hl] at hlen ⊢
      omega
    · rw [if_neg (not_lt.mpr hl)] at hlen ⊢
      omega

/-- C10 witness: concrete instances discharging the hypotheses: a start
of 0 clamps to the first character, and a negative count yields the empty
string. -/
theorem substring_spec_witness :
    (SqlString.substring3___ ("hello".toList) 0 5 =
        SqlString.substring3___ ("hello".toList) 1 5 ∧
      SqlString.substring2__ ("hello".toList) 0 =
        SqlString.substring2__ ("hello".toList) 1) ∧
    SqlString.substring3___ ("hello".toList) 3 (-1) = [] :=
  ⟨(substring_spec ("hello".toList) 0 5).1 (by norm_num),
    (substring_spec ("hello".toList) 3 (-1)).2.1 (by norm_num)⟩

/-- C8: canonical_identifier strips exactly the first and last characters
(verbatim, no other change) when the identifier starts and ends with a
double quote and has length at least 2, and lowercases the whole
identifier otherwise; Relation::name applies the same
lowercase-unless-case-sensitive rule driven by the case_sensitive flag. -/
theorem canonical_identifier_spec (id : List Char) (r : ProgramSchema.Relation) :
    (id.head? = some ProgramSchema.dqChar → id.getLast? = some ProgramSchema.dqChar →
      2 ≤ id.length →
      ProgramSchema.canonical_identifier id = (id.drop 1).dropLast) ∧
    (¬(id.head? = some ProgramSchema.dqChar ∧ id.getLast? = some ProgramSchema.dqChar ∧
        2 ≤ id.length) →
      ProgramSchema.canonical_identifier id = id.map Char.toLower) ∧
    (r.case_sensitive = true → ProgramSchema.Relation.canonicalName r = r.name) ∧
    (r.case_sensitive = false →
      ProgramSchema.Relation.canonicalName r = r.name.map Char.toLower) := by
  refine ⟨?_, ?_, ?_, ?_⟩
  · intro h1 h2 h3
    unfold ProgramSchema.canonical_identifier
    rw [if_pos ⟨h1, h2, h3⟩, List.dropLast_eq_take, List.length_drop]
    congr 1
  · intro h
    unfold ProgramSchema.canonical_identifier
    rw [if_neg h]
  · intro h
    unfold ProgramSchema.Relation.canonicalName
    rw [if_pos h]
  · intro h
    unfold ProgramSchema.Relation.canonicalName
    rw [if_neg (by simp [h])]

/-- C8 witness: a quoted identifier keeps its inner casing, an unquoted
one is lowercased, and a case-insensitive relation name is lowercased. -/
theorem canonical_identifier_spec_witness :
    ProgramSchema.canonical_identifier
        ([ProgramSchema.dqChar, Char.ofNat 65, ProgramSchema.dqChar]) =
      (([ProgramSchema.dqChar, Char.ofNat 65, ProgramSchema.dqChar].drop 1).dropLast) ∧
    ProgramSchema.canonical_identifier ("Ab".toList) = ("Ab".toList).map Char.toLower ∧
    ProgramSchema.Relation.canonicalName { name := "Ab".toList, case_sensitive := false } =
      ("Ab".toList).map Char.toLower :=
  ⟨(canonical_identifier_spec
        ([ProgramSchema.dqChar, Char.ofNat 65, ProgramSchema.dqChar])
        { name := [], case_sensitive := false }).1 rfl rfl (by norm_num),
    (canonical_identifier_spec ("Ab".toList)
        { name := [], case_sensitive := false }).2.1 (by decide),
    (canonical_identifier_spec ([])
        { name := "Ab".toList, case_sensitive := false }).2.2.2 rfl⟩

/-- After folding a write history over any starting file, the block found
at an offset is the last write at that offset, falling back to the
starting file. -/
theorem blockLookup_foldl (ws : List (Nat × List Nat)) :
    ∀ (fm : MemBackend.FileMeta) (o : Nat),
      MemBackend.blockLookup
          ((ws.foldl (fun fm w => MemBackend.write_block fm w.1 w.2) fm).blocks) o =
        match MemBackend.lastWriteAt ws o with
        | some b => some b
        | none => MemBackend.blockLookup fm.blocks o := by
  induction ws with
  | nil => intro fm o; rfl
  | cons w rest ih =>
    intro fm o
    rw [List.foldl_cons, ih]
    cases h : MemBackend.lastWriteAt rest o with
    | some b => simp [MemBackend.lastWriteAt, h]
    | none =>
      by_cases hw : w.1 = o <;>
        simp [MemBackend.lastWriteAt, h, MemBackend.write_block,
          MemBackend.blockLookup, hw]

/-- The block map produced by a write history records exactly the last
write at each offset. -/
theorem blockLookup_applyWrites (ws : List (Nat × List Nat)) (o : Nat) :
    MemBackend.blockLookup (MemBackend.applyWrites ws).blocks o =
      MemBackend.lastWriteAt ws o := by
  unfold MemBackend.applyWrites
  rw [blockLookup_foldl]
  cases h : MemBackend.lastWriteAt ws o <;> rfl

/-- C5: after any write history applied to a fresh file, read_block
succeeds with exactly the stored bytes if and only if the last block
written at that offset has length equal to the requested size; in every
other case it fails with the unexpected-end-of-data condition. The two
concrete conjuncts are the round-trip example from the specification. -/
theorem read_block_spec (ws : List (Nat × List Nat)) (offset size : Nat) :
    (∀ b, MemBackend.read_block (MemBackend.applyWrites ws) offset size = Except.ok b ↔
      (MemBackend.lastWriteAt ws offset = some b ∧ b.length = size)) ∧
    ((∀ b, MemBackend.lastWriteAt ws offset = some b → b.length ≠ size) →
      MemBackend.read_block (MemBackend.applyWrites ws) offset size =
        Except.error (MemBackend.StorageError.stdIo MemBackend.ErrKind.unexpectedEof)) ∧
    MemBackend.read_block (MemBackend.applyWrites [(0, [1, 2, 3])]) 0 3 =
      Except.ok [1, 2, 3] ∧
    MemBackend.read_block (MemBackend.applyWrites [(0, [1, 2, 3])]) 0 2 =
      Except.error (MemBackend.StorageError.stdIo MemBackend.ErrKind.unexpectedEof) := by
  refine ⟨?_, ?_, by rfl, by rfl⟩
  · intro b
    unfold MemBackend.read_block
    rw [blockLookup_applyWrites]
    cases h : MemBackend.lastWriteAt ws offset with
    | none => simp
    | some blk =>
      by_cases hs : size = blk.length
      · simp [hs]
        intro hb
        subst hb
        rfl
      · simp [hs]
        intro hb
        subst hb
        omega
  · intro hno
    unfold MemBackend.read_block
    rw [blockLookup_applyWrites]
    cases h : MemBackend.lastWriteAt ws offset with
    | none => rfl
    | some blk =>
      have hne : ¬ size = blk.length := fun hs => hno blk h hs.symm
      simp [hne]

/-- C5 witness: a size mismatch at an existing offset fails with the
unexpected-end-of-data condition, via the general theorem. -/
theorem read_block_spec_witness :
    MemBackend.read_block (MemBackend.applyWrites [(0, [1, 2, 3])]) 0 2 =
      Except.error (MemBackend.StorageError.stdIo MemBackend.ErrKind.unexpectedEof) :=
  (read_block_spec [(0, [1, 2, 3])] 0 2).2.1
    (by
      intro b hb
      simp [MemBackend.lastWriteAt] at hb
      subst hb
      norm_num)

/-- The overlap loop never produces some false: its early exit yields
some true and its fall-through yields none or some true. -/
theorem overlapLoop_ne_some_false {T : Type} [DecidableEq T] (s : List (Option T)) :
    ∀ (b : List (Option T)) (h : Bool),
      SqlArray.overlapLoop s b h ≠ some false := by
  intro b
  induction b with
  | nil =>
    intro h
    cases h <;> simp [SqlArray.overlapLoop]
  | cons e rest ih =>
    intro h
    cases e with
    | none => simpa [SqlArray.overlapLoop] using ih true
    | some x =>
      by_cases hx : some x ∈ s
      · simp [SqlArray.overlapLoop, hx]
      · simp [SqlArray.overlapLoop, hx]
        exact ih h

/-- The overlap loop falls through to none only when the flag was already
set or the walked list contains an absent entry. -/
theorem overlapLoop_none_imp {T : Type} [DecidableEq T] (s : List (Option T)) :
    ∀ (b : List (Option T)) (h : Bool),
      SqlArray.overlapLoop s b h = none → h = true ∨ none ∈ b := by
  intro b
  induction b with
  | nil =>
    intro h
    cases h <;> simp [SqlArray.overlapLoop]
  | cons e rest ih =>
    intro h hres
    cases e with
    | none => simp
    | some x =>
      by_cases hx : some x ∈ s
      · simp [SqlArray.overlapLoop, hx] at hres
      · simp only [SqlArray.overlapLoop, if_neg hx] at hres
        rcases ih h hres with h1 | h1
        · exact Or.inl h1
        · exact Or.inr (List.mem_cons_of_mem _ h1)

/-- With the flag clear, a set disjoint from the walked list and no
absent entry in the walked list, the loop falls through to some true. -/
theorem overlapLoop_clean {T : Type} [DecidableEq T] (s : List (Option T)) :
    ∀ (b : List (Option T)), (∀ x : T, some x ∈ s → some x ∉ b) → none ∉ b →
      SqlArray.overlapLoop s b false = some true := by
  intro b
  induction b with
  | nil =>
    intro _ _
    simp [SqlArray.overlapLoop]
  | cons e rest ih =>
    intro hdisj hnb
    cases e with
    | none => exact absurd (List.mem_cons_self _ _) hnb
    | some x =>
      have hx : some x ∉ s := fun hmem =>
        hdisj x hmem (List.mem_cons_self _ _)
      simp only [SqlArray.overlapLoop, if_neg hx]
      exact ih (fun y hy hyb => hdisj y hy (List.mem_cons_of_mem _ hyb))
        (fun hnb2 => hnb (List.mem_cons_of_mem _ hnb2))

/-- The body of the overlap function, for sides that share no non-absent
element: some true when either side is empty and when both sides are
clean of absent entries, never some false, and none only with both sides
non-empty and an absent entry present. -/
theorem arrays_overlapBody_spec {T : Type} [DecidableEq T]
    (smaller bigger : List (Option T))
    (hdisj : ∀ x : T, ¬ (some x ∈ smaller ∧ some x ∈ bigger)) :
    ((smaller = [] ∨ bigger = []) →
      SqlArray.arrays_overlapBody smaller bigger = some true) ∧
    ((smaller ≠ [] ∧ bigger ≠ [] ∧ none ∉ smaller ∧ none ∉ bigger) →
      SqlArray.arrays_overlapBody smaller bigger = some true) ∧
    (SqlArray.arrays_overlapBody smaller bigger ≠ some false) ∧
    (SqlArray.arrays_overlapBody smaller bigger = none →
      smaller ≠ [] ∧ bigger ≠ [] ∧ (none ∈ smaller ∨ none ∈ bigger)) := by
  refine ⟨?_, ?_, ?_, ?_⟩
  · intro h
    unfold SqlArray.arrays_overlapBody
    rw [if_pos h]
  · rintro ⟨h1, h2, h3, h4⟩
    unfold SqlArray.arrays_overlapBody
    rw [if_neg (by intro h; rcases h with h | h; exact h1 h; exact h2 h)]
    rw [show decide (none ∈ smaller) = false from by simp [h3]]
    exact overlapLoop_clean smaller bigger
      (fun x hx hxb => hdisj x ⟨hx, hxb⟩) h4
  · unfold SqlArray.arrays_overlapBody
    by_cases h : smaller = [] ∨ bigger = []
    · rw [if_pos h]
      simp
    · rw [if_neg h]
      exact overlapLoop_ne_some_false smaller bigger _
  · unfold SqlArray.arrays_overlapBody
    by_cases h : smaller = [] ∨ bigger = []
    · rw [if_pos h]
      simp
    · rw [if_neg h]
      intro hres
      push_neg at h
      refine ⟨h.1, h.2, ?_⟩
      rcases overlapLoop_none_imp smaller bigger _ hres with h1 | h1
      · exact Or.inl (by simpa using h1)
      · exact Or.inr h1

/-- C2: the optional-element arrays_overlap on two vectors sharing no
non-absent element: the result is some true when either vector is empty
and when both are non-empty with no absent entry; it is never some false;
and the absent result occurs only with both vectors non-empty and an
absent entry seen. -/
theorem arrays_overlap_opt_spec {T : Type} [DecidableEq T]
    (first second : List (Option T))
    (hdisj : ∀ x : T, ¬ (some x ∈ first ∧ some x ∈ second)) :
    ((first = [] ∨ second = []) →
      SqlArray.arrays_overlapNvec_Nvec_ first second = some true) ∧
    ((first ≠ [] ∧ second ≠ [] ∧ none ∉ first ∧ none ∉ second) →
      SqlArray.arrays_overlapNvec_Nvec_ first second = some true) ∧
    (SqlArray.arrays_overlapNvec_Nvec_ first second ≠ some false) ∧
    (SqlArray.arrays_overlapNvec_Nvec_ first second = none →
      first ≠ [] ∧ second ≠ [] ∧ (none ∈ first ∨ none ∈ second)) := by
  unfold SqlArray.arrays_overlapNvec_Nvec_
  by_cases hlen : second.length < first.length
  · rw [if_pos hlen]
    have hd := arrays_overlapBody_spec second first
      (fun x hx => hdisj x ⟨hx.2, hx.1⟩)
    refine ⟨?_, ?_, hd.2.2.1, ?_⟩
    · intro h
      exact hd.1 h.symm
    · rintro ⟨h1, h2, h3, h4⟩
      exact hd.2.1 ⟨h2, h1, h4, h3⟩
    · intro h
      rcases hd.2.2.2 h with ⟨h1, h2, h3⟩
      exact ⟨h2, h1, h3.symm⟩
  · rw [if_neg hlen]
    have hd := arrays_overlapBody_spec first second hdisj
    exact hd

/-- C2 witness: two disjoint non-empty clean vectors produce some true,
via the general theorem. -/
theorem arrays_overlap_opt_spec_witness :
    SqlArray.arrays_overlapNvec_Nvec_ [some (1 : Nat)] [some 2] = some true :=
  (arrays_overlap_opt_spec [some (1 : Nat)] [some 2]
      (by
        intro x hx
        rcases hx with ⟨h1, h2⟩
        simp at h1 h2
        omega)).2.1
    (by simp)

/-- A supported field type renders to some chunk. -/
theorem generate_field_good (d : CliBench.FieldDraw) (typ : String)
    (h : typ ∈ CliBench.goodTypes) :
    CliBench.generate_field d typ = some (CliBench.renderField d typ) := by
  rcases (by simpa [CliBench.goodTypes] using h :
      typ = "BIGINT" ∨ typ = "VARCHAR" ∨ typ = "DECIMAL") with h1 | h1 | h1 <;>
    subst h1 <;> rfl

/-- An unsupported field type aborts. -/
theorem generate_field_bad (d : CliBench.FieldDraw) (typ : String)
    (h : typ ∉ CliBench.goodTypes) :
    CliBench.generate_field d typ = none := by
  have hb : ¬ typ = "BIGINT" := fun he => h (by simp [CliBench.goodTypes, he])
  have hv : ¬ typ = "VARCHAR" := fun he => h (by simp [CliBench.goodTypes, he])
  have hd : ¬ typ = "DECIMAL" := fun he => h (by simp [CliBench.goodTypes, he])
  unfold CliBench.generate_field
  rw [if_neg hb, if_neg hv, if_neg hd]

/-- C9: for a relation whose column types are all BIGINT, VARCHAR or
DECIMAL, the field loop of generate_rows succeeds and produces exactly
the concatenation of the per-field renderings, where under the rand
library contracts every BIGINT field is the decimal text of an integer
below 1024, every VARCHAR field is a 16-character alphanumeric draw, and
every DECIMAL field is the text rendering of the float draw, each
followed by the separating comma; a relation containing any other column
type aborts (the unimplemented panic). -/
theorem generate_rows_spec (draws : Nat → CliBench.FieldDraw)
    (fields : List CliBench.Field) (k : Nat)
    (hint : ∀ n, (draws n).intDraw < 1024)
    (hstr : ∀ n, (draws n).strDraw.length = 16 ∧
      ∀ c ∈ (draws n).strDraw, c.isAlphanum = true) :
    ((∀ f ∈ fields, f.columntype.typ ∈ CliBench.goodTypes) →
      CliBench.generate_fields draws k fields =
        some (CliBench.renderFields draws k fields)) ∧
    (∀ i, ∀ hi : i < fields.length,
      ((fields.get ⟨i, hi⟩).columntype.typ = ("BIGINT" : String) →
        ∃ nval, nval < 1024 ∧
          CliBench.renderField (draws (k + i)) ((fields.get ⟨i, hi⟩).columntype.typ) =
            (Nat.repr nval).toList ++ [CliBench.commaChar]) ∧
      ((fields.get ⟨i, hi⟩).columntype.typ = ("VARCHAR" : String) →
        ∃ cs, cs.length = 16 ∧ (∀ c ∈ cs, c.isAlphanum = true) ∧
          CliBench.renderField (draws (k + i)) ((fields.get ⟨i, hi⟩).columntype.typ) =
            cs ++ [CliBench.commaChar]) ∧
      ((fields.get ⟨i, hi⟩).columntype.typ = ("DECIMAL" : String) →
        CliBench.renderField (draws (k + i)) ((fields.get ⟨i, hi⟩).columntype.typ) =
          (draws (k + i)).decDraw ++ [CliBench.commaChar])) ∧
    ((∃ f ∈ fields, f.columntype.typ ∉ CliBench.goodTypes) →
      CliBench.generate_fields draws k fields = none) := by
  refine ⟨?_, ?_, ?_⟩
  · induction fields generalizing k with
    | nil => intro _; rfl
    | cons f rest ih =>
      intro hgood
      have hf := generate_field_good (draws k) f.columntype.typ
        (hgood f (List.mem_cons_self _ _))
      have hr := ih (k + 1) (fun g hg => hgood g (List.mem_cons_of_mem _ hg))
      simp [CliBench.generate_fields, CliBench.renderFields, hf, hr]
  · intro i hi
    refine ⟨?_, ?_, ?_⟩
    · intro ht
      refine ⟨(draws (k + i)).intDraw, hint (k + i), ?_⟩
      rw [ht]
      rfl
    · intro ht
      refine ⟨(draws (k + i)).strDraw, (hstr (k + i)).1, (hstr (k + i)).2, ?_⟩
      rw [ht]
      rfl
    · intro ht
      rw [ht]
      rfl
  · induction fields generalizing k with
    | nil =>
      rintro ⟨f, hf, _⟩
      exact absurd hf (List.not_mem_nil f)
    | cons f rest ih =>
      rintro ⟨g, hg, hbad⟩
      rcases List.mem_cons.mp hg with rfl | hg2
      · simp [CliBench.generate_fields, generate_field_bad (draws k) _ hbad]
      · cases hf : CliBench.generate_field (draws k) f.columntype.typ with
        | none => simp [CliBench.generate_fields, hf]
        | some chunk =>
          simp [CliBench.generate_fields, hf, ih (k + 1) ⟨g, hg2, hbad⟩]

/-- C9 witness: a one-column BIGINT relation with a concrete oracle
renders via the general theorem. -/
theorem generate_rows_spec_witness :
    CliBench.generate_fields
        (fun _ => ⟨5, "abcdefghij123456".toList, "0.5".toList⟩) 0
        [{ name := "c1", columntype := { typ := "BIGINT" } }] =
      some (CliBench.renderFields
        (fun _ => ⟨5, "abcdefghij123456".toList, "0.5".toList⟩) 0
        [{ name := "c1", columntype := { typ := "BIGINT" } }]) :=
  (generate_rows_spec (fun _ => ⟨5, "abcdefghij123456".toList, "0.5".toList⟩)
      [{ name := "c1", columntype := { typ := "BIGINT" } }] 0
      (fun _ => by norm_num)
      (by
        intro n
        refine ⟨rfl, ?_⟩
        show ∀ c ∈ ("abcdefghij123456".toList), c.isAlphanum = true
        decide)).1
    (by
      intro f hf
      simp at hf
      subst hf
      simp [CliBench.goodTypes])

/-- The duplicate scan over param pairs agrees with the scan over the
projected address list. -/
theorem firstDuplicate_eq_firstRepeated {A : Type} [DecidableEq A] :
    ∀ (l : List (A × Nat)) (seen : List A),
      DbspHandle.firstDuplicate seen l =
        DbspHandle.firstRepeatedAddr seen (l.map Prod.fst) := by
  intro l
  induction l with
  | nil => intro seen; rfl
  | cons p rest ih =>
    intro seen
    by_cases hp : p.1 ∈ seen <;>
      simp [DbspHandle.firstDuplicate, DbspHandle.firstRepeatedAddr, hp, ih]

/-- The address scan returns none exactly when the list has no duplicate
and avoids everything already seen. -/
theorem firstRepeatedAddr_none_iff {A : Type} [DecidableEq A] :
    ∀ (l seen : List A),
      DbspHandle.firstRepeatedAddr seen l = none ↔
        l.Nodup ∧ ∀ a ∈ l, a ∉ seen := by
  intro l
  induction l with
  | nil => intro seen; simp [DbspHandle.firstRepeatedAddr]
  | cons a rest ih =>
    intro seen
    by_cases ha : a ∈ seen
    · simp [DbspHandle.firstRepeatedAddr, ha]
    · rw [show DbspHandle.firstRepeatedAddr seen (a :: rest) =
          DbspHandle.firstRepeatedAddr (a :: seen) rest from by
            simp [DbspHandle.firstRepeatedAddr, ha]]
      rw [ih (a :: seen)]
      constructor
      · rintro ⟨hnd, hall⟩
        refine ⟨List.nodup_cons.mpr
          ⟨fun hmem => (hall a hmem) (List.mem_cons_self _ _), hnd⟩, ?_⟩
        intro b hb
        rcases List.mem_cons.mp hb with rfl | hb2
        · exact ha
        · exact fun hbs => (hall b hb2) (List.mem_cons_of_mem _ hbs)
      · rintro ⟨hnd, hall⟩
        obtain ⟨hna, hndr⟩ := List.nodup_cons.mp hnd
        refine ⟨hndr, ?_⟩
        intro b hb hbs
        rcases List.mem_cons.mp hbs with rfl | hbs2
        · exact hna hb
        · exact hall b (List.mem_cons_of_mem _ hb) hbs2

/-- A found duplicate whose scan started with nothing seen occurs at
least twice in the list. -/
theorem firstRepeatedAddr_count {A : Type} [DecidableEq A] :
    ∀ (l seen : List A) (d : A),
      DbspHandle.firstRepeatedAddr seen l = some d →
        (d ∈ seen ∧ d ∈ l) ∨ 2 ≤ l.count d := by
  intro l
  induction l with
  | nil => intro seen d h; simp [DbspHandle.firstRepeatedAddr] at h
  | cons a rest ih =>
    intro seen d h
    by_cases ha : a ∈ seen
    · rw [show DbspHandle.firstRepeatedAddr seen (a :: rest) = some a from by
        simp [DbspHandle.firstRepeatedAddr, ha]] at h
      cases h
      exact Or.inl ⟨ha, List.mem_cons_self _ _⟩
    · rw [show DbspHandle.firstRepeatedAddr seen (a :: rest) =
          DbspHandle.firstRepeatedAddr (a :: seen) rest from by
            simp [DbspHandle.firstRepeatedAddr, ha]] at h
      rcases ih (a :: seen) d h with ⟨hds, hdr⟩ | hcnt
      · rcases List.mem_cons.mp hds with rfl | hds2
        · refine Or.inr ?_
          rw [List.count_cons_self]
          have : 1 ≤ rest.count d := List.count_pos_iff.mpr hdr
          omega
        · exact Or.inl ⟨hds2, List.mem_cons_of_mem _ hdr⟩
      · refine Or.inr ?_
        have : rest.count d ≤ (a :: rest).count d := by
          rw [List.count_cons]
          omega
        omega

/-- findPosition misses exactly the addresses absent from the list. -/
theorem findPosition_none_iff {A : Type} [DecidableEq A] (a : A) :
    ∀ (l : List (A × Nat)),
      DbspHandle.findPosition a l = none ↔ a ∉ l.map Prod.fst := by
  intro l
  induction l with
  | nil => simp [DbspHandle.findPosition]
  | cons p rest ih =>
    by_cases hp : p.1 = a
    · simp [DbspHandle.findPosition, hp]
    · rw [show DbspHandle.findPosition a (p :: rest) =
          (DbspHandle.findPosition a rest).map (fun n => n + 1) from by
            simp [DbspHandle.findPosition, hp]]
      rw [Option.map_eq_none', ih]
      constructor
      · intro h hmem
        rw [List.map_cons, List.mem_cons] at hmem
        rcases hmem with he | he
        · exact hp he.symm
        · exact h he
      · intro h hmem
        apply h
        rw [List.map_cons, List.mem_cons]
        exact Or.inr hmem

/-- A found position is in range and carries the sought address. -/
theorem findPosition_some_get {A : Type} [DecidableEq A] (a : A) :
    ∀ (l : List (A × Nat)) (i : Nat),
      DbspHandle.findPosition a l = some i →
        ∃ h : i < l.length, (l.get ⟨i, h⟩).1 = a := by
  intro l
  induction l with
  | nil => intro i h; simp [DbspHandle.findPosition] at h
  | cons p rest ih =>
    intro i h
    by_cases hp : p.1 = a
    · rw [show DbspHandle.findPosition a (p :: rest) = some 0 from by
        simp [DbspHandle.findPosition, hp]] at h
      cases h
      exact ⟨Nat.succ_pos _, hp⟩
    · rw [show DbspHandle.findPosition a (p :: rest) =
          (DbspHandle.findPosition a rest).map (fun n => n + 1) from by
            simp [DbspHandle.findPosition, hp]] at h
      cases hr : DbspHandle.findPosition a rest with
      | none => rw [hr] at h; simp at h
      | some j =>
        rw [hr] at h
        simp at h
        rcases ih j hr with ⟨hj, hja⟩
        subst h
        exact ⟨Nat.succ_lt_succ hj, hja⟩

/-- The host-building loop succeeds on nonzero worker counts and carries
the addresses in order with contiguous worker ranges from the running
total. -/
theorem buildHosts_spec {A : Type} :
    ∀ (params : List (A × Nat)) (total : Nat),
      (∀ p ∈ params, p.2 ≠ 0) →
      ∃ hosts, DbspHandle.buildHosts total params = some hosts ∧
        hosts.length = params.length ∧
        ∀ i, ∀ hi : i < hosts.length, ∀ hp : i < params.length,
          (hosts.get ⟨i, hi⟩).address = (params.get ⟨i, hp⟩).1 ∧
          (hosts.get ⟨i, hi⟩).workers_lo
            = total + ((params.map Prod.snd).take i).sum ∧
          (hosts.get ⟨i, hi⟩).workers_hi
            = total + ((params.map Prod.snd).take (i + 1)).sum := by
  intro params
  induction params with
  | nil =>
    intro total _
    exact ⟨[], rfl, rfl, fun i hi => absurd hi (by simp)⟩
  | cons p rest ih =>
    intro total hnz
    rcases ih (total + p.2) (fun q hq => hnz q (List.mem_cons_of_mem _ hq)) with
      ⟨hs, hbh, hlen, hidx⟩
    refine ⟨⟨p.1, total, total + p.2⟩ :: hs, ?_, by simpa using hlen, ?_⟩
    · simp [DbspHandle.buildHosts, hnz p (List.mem_cons_self _ _), hbh]
    · intro i hi hp
      cases i with
      | zero => exact ⟨rfl, by simp, by simp⟩
      | succ j =>
        have hj : j < hs.length := by simpa using hi
        have hjp : j < rest.length := by simpa using hp
        rcases hidx j hj hjp with ⟨ha, hlo, hhi⟩
        refine ⟨by simpa using ha, ?_, ?_⟩
        · show (hs.get ⟨j, hj⟩).workers_lo = _
          rw [hlo]
          simp [List.take_succ_cons]
          omega
        · show (hs.get ⟨j, hj⟩).workers_hi = _
          rw [hhi]
          simp [List.take_succ_cons]
          omega

/-- C4 (amended: provided every listed worker count is nonzero, since a
zero count trips an assert and panics): new_multihost returns a
DuplicateAddress error naming the first repeated address when the
addresses are not distinct; otherwise a NoSuchAddress error naming the
local address when it is absent from the list; otherwise a Solo layout
with the single listed worker count for a one-host list, and for longer
lists a Multihost layout whose hosts carry the listed addresses in order
with contiguous non-overlapping worker ranges starting at 0, the local
index pointing at the local address. -/
theorem new_multihost_spec {A : Type} [DecidableEq A] (params : List (A × Nat))
    (local_address : A) (hnz : ∀ p ∈ params, p.2 ≠ 0) :
    (¬ (params.map Prod.fst).Nodup →
      ∃ d, DbspHandle.firstRepeatedAddr [] (params.map Prod.fst) = some d ∧
        2 ≤ (params.map Prod.fst).count d ∧
        DbspHandle.new_multihost params local_address =
          some (Except.error (DbspHandle.LayoutError.DuplicateAddress d))) ∧
    ((params.map Prod.fst).Nodup → local_address ∉ params.map Prod.fst →
      DbspHandle.new_multihost params local_address =
        some (Except.error (DbspHandle.LayoutError.NoSuchAddress local_address))) ∧
    (∀ a n, params = [(a, n)] → local_address = a →
      DbspHandle.new_multihost params local_address =
        some (Except.ok (DbspHandle.Layout.Solo n))) ∧
    ((params.map Prod.fst).Nodup → local_address ∈ params.map Prod.fst →
      2 ≤ params.length →
      ∃ hosts idx,
        DbspHandle.new_multihost params local_address =
          some (Except.ok (DbspHandle.Layout.Multihost hosts idx)) ∧
        hosts.length = params.length ∧
        (∀ i, ∀ hi : i < hosts.length, ∀ hp : i < params.length,
          (hosts.get ⟨i, hi⟩).address = (params.get ⟨i, hp⟩).1 ∧
          (hosts.get ⟨i, hi⟩).workers_lo = ((params.map Prod.snd).take i).sum ∧
          (hosts.get ⟨i, hi⟩).workers_hi
            = ((params.map Prod.snd).take (i + 1)).sum) ∧
        ∃ hidx : idx < params.length,
          (params.get ⟨idx, hidx⟩).1 = local_address) := by
  refine ⟨?_, ?_, ?_, ?_⟩
  · intro hdup
    cases hfr : DbspHandle.firstRepeatedAddr [] (params.map Prod.fst) with
    | none =>
      exact absurd ((firstRepeatedAddr_none_iff (params.map Prod.fst) []).mp hfr).1
        hdup
    | some d =>
      refine ⟨d, rfl, ?_, ?_⟩
      · rcases firstRepeatedAddr_count (params.map Prod.fst) [] d hfr with
          ⟨hds, _⟩ | hcnt
        · exact absurd hds (List.not_mem_nil d)
        · exact hcnt
      · unfold DbspHandle.new_multihost
        rw [firstDuplicate_eq_firstRepeated, hfr]
  · intro hnd hnm
    have h1 : DbspHandle.firstRepeatedAddr [] (params.map Prod.fst) = none :=
      (firstRepeatedAddr_none_iff (params.map Prod.fst) []).mpr
        ⟨hnd, fun x _ => List.not_mem_nil x⟩
    have h2 : DbspHandle.findPosition local_address params = none :=
      (findPosition_none_iff local_address params).mpr hnm
    simp [DbspHandle.new_multihost, firstDuplicate_eq_firstRepeated, h1, h2]
  · intro a n hparams hlocal
    subst hparams
    subst hlocal
    have hn : n ≠ 0 := hnz (local_address, n) (List.mem_cons_self _ _)
    simp [DbspHandle.new_multihost, DbspHandle.firstDuplicate,
      DbspHandle.findPosition, DbspHandle.new_solo, hn]
  · intro hnd hmem hlen2
    have h1 : DbspHandle.firstRepeatedAddr [] (params.map Prod.fst) = none :=
      (firstRepeatedAddr_none_iff (params.map Prod.fst) []).mpr
        ⟨hnd, fun x _ => List.not_mem_nil x⟩
    cases hfp : DbspHandle.findPosition local_address params with
    | none =>
      exact absurd ((findPosition_none_iff local_address params).mp hfp) (by
        intro h
        exact h hmem)
    | some idx =>
      rcases buildHosts_spec params 0 hnz with ⟨hosts, hbh, hlen, hprop⟩
      refine ⟨hosts, idx, ?_, hlen, ?_, ?_⟩
      · simp [DbspHandle.new_multihost, firstDuplicate_eq_firstRepeated, h1,
          hfp, hbh, show ¬ params.length = 1 from by omega]
      · intro i hi hp
        rcases hprop i hi hp with ⟨ha, hlo, hhi⟩
        exact ⟨ha, by simpa using hlo, by simpa using hhi⟩
      · rcases findPosition_some_get local_address params idx hfp with ⟨hb, hg⟩
        exact ⟨hb, hg⟩

/-- C4 counterexample: a one-host list with a zero worker count passes
both address checks but panics on the assert in new_solo (none), instead
of returning the Solo layout with 0 workers the unamended claim
asserts. -/
theorem new_multihost_zero_workers_cex :
    DbspHandle.new_multihost [((0 : Nat), 0)] 0 = none ∧
    DbspHandle.new_multihost [((0 : Nat), 0)] 0 ≠
      some (Except.ok (DbspHandle.Layout.Solo 0)) := by
  have h0 : DbspHandle.new_multihost [((0 : Nat), 0)] 0 = none := rfl
  refine ⟨h0, ?_⟩
  rw [h0]
  simp

/-- C4 witness: the one-host and two-host success shapes of the
specification examples, via the general theorem. -/
theorem new_multihost_spec_witness :
    DbspHandle.new_multihost [((0 : Nat), 2)] 0 =
      some (Except.ok (DbspHandle.Layout.Solo 2)) ∧
    (∃ hosts idx,
      DbspHandle.new_multihost [((0 : Nat), 2), (1, 3)] 0 =
        some (Except.ok (DbspHandle.Layout.Multihost hosts idx))) :=
  ⟨(new_multihost_spec [((0 : Nat), 2)] 0 (by decide)).2.2.1 0 2 rfl rfl,
    by
      rcases (new_multihost_spec [((0 : Nat), 2), (1, 3)] 0 (by decide)).2.2.2
          (by decide) (by decide) (by decide) with ⟨hosts, idx, heq, _⟩
      exact ⟨hosts, idx, heq⟩⟩

/-- Truncation of a whole number is itself. -/
theorem ratTrunc_intCast (z : ℤ) : Casts.ratTrunc ((z : ℤ) : ℚ) = z := by
  unfold Casts.ratTrunc
  split
  · exact Int.floor_intCast z
  · exact Int.ceil_intCast z

/-- Truncation toward zero commutes with negation. -/
theorem ratTrunc_neg (q : ℚ) : Casts.ratTrunc (-q) = -Casts.ratTrunc q := by
  unfold Casts.ratTrunc
  rcases lt_trichotomy q 0 with h | h | h
  · rw [if_pos (by linarith), if_neg (not_le.mpr h), Int.floor_neg]
  · subst h
    norm_num
  · rw [if_neg (not_le.mpr (by linarith)), if_pos h.le, Int.ceil_neg]

/-- Truncated division of naturals is rational truncation toward zero. -/
theorem tdiv_natCast_ratTrunc (n d : ℕ) :
    ((n : ℤ)).tdiv ((d : ℕ) : ℤ) = Casts.ratTrunc ((n : ℚ) / (d : ℚ)) := by
  unfold Casts.ratTrunc
  rw [if_pos (by positivity)]
  rw [Int.tdiv_eq_ediv (by positivity) (by positivity)]
  rw [show ((n : ℚ)) = (((n : ℤ) : ℤ) : ℚ) from by push_cast; ring]
  rw [Rat.floor_intCast_div_natCast]

/-- Truncated division by a power of ten computes rational truncation
toward zero of the quotient, for any integer numerator. -/
theorem tdiv_pow10_ratTrunc (m : ℤ) (k : ℕ) :
    m.tdiv ((10 : ℤ) ^ k) = Casts.ratTrunc ((m : ℚ) / (10 : ℚ) ^ k) := by
  have h10z : ((10 : ℤ) ^ k) = (((10 ^ k : ℕ)) : ℤ) := by push_cast; ring
  have h10q : ((10 : ℚ) ^ k) = (((10 ^ k : ℕ)) : ℚ) := by push_cast; ring
  rw [h10z, h10q]
  rcases Int.natAbs_eq m with h | h
  · rw [h]
    rw [tdiv_natCast_ratTrunc m.natAbs (10 ^ k)]
    congr 1
  · rw [h, Int.neg_tdiv]
    rw [show (((-(m.natAbs : ℤ)) : ℤ) : ℚ) / ((10 ^ k : ℕ) : ℚ)
        = -(((m.natAbs : ℕ) : ℚ) / ((10 ^ k : ℕ) : ℚ)) from by
          push_cast [Int.cast_natAbs]
          ring]
    rw [ratTrunc_neg, ← tdiv_natCast_ratTrunc]

/-- Two successive truncated divisions by powers of ten compose. -/
theorem tdiv_pow10_comp (m : ℤ) (a b : ℕ) :
    (m.tdiv ((10 : ℤ) ^ a)).tdiv ((10 : ℤ) ^ b) = m.tdiv ((10 : ℤ) ^ (a + b)) := by
  have ha : ((10 : ℤ) ^ a) = (((10 ^ a : ℕ)) : ℤ) := by push_cast; ring
  have hb : ((10 : ℤ) ^ b) = (((10 ^ b : ℕ)) : ℤ) := by push_cast; ring
  have hab : ((10 : ℤ) ^ (a + b)) = (((10 ^ (a + b) : ℕ)) : ℤ) := by push_cast; ring
  rw [ha, hb, hab]
  rcases Int.natAbs_eq m with h | h
  · rw [h, ← Int.ofNat_tdiv, ← Int.ofNat_tdiv, ← Int.ofNat_tdiv,
      Nat.div_div_eq_div_mul, ← pow_add]
  · rw [h, Int.neg_tdiv, Int.neg_tdiv, Int.neg_tdiv,
      ← Int.ofNat_tdiv, ← Int.ofNat_tdiv, ← Int.ofNat_tdiv,
      Nat.div_div_eq_div_mul, ← pow_add]

/-- The integer-part mantissa of a decimal is the rational truncation of
its value. -/
theorem truncD_mantissa (d : Casts.Decimal) :
    d.truncD.mantissa = Casts.ratTrunc d.toRat := by
  unfold Casts.Decimal.truncD Casts.Decimal.toRat
  exact tdiv_pow10_ratTrunc d.mantissa d.scale

/-- Rounding a decimal toward zero to a target scale computes exactly the
specification-side truncation of its rational value to that many
fractional digits. -/
theorem toRat_round (v : Casts.Decimal) (s : Nat) :
    (Casts.round_dp_to_zero v s).toRat = Casts.truncToScale v.toRat s := by
  unfold Casts.round_dp_to_zero Casts.truncToScale Casts.Decimal.toRat
  by_cases hle : v.scale ≤ s
  · rw [if_pos hle]
    obtain ⟨t, rfl⟩ : ∃ t, s = v.scale + t := ⟨s - v.scale, by omega⟩
    have hps : (0 : ℚ) < (10 : ℚ) ^ v.scale := by positivity
    have h1 : (v.mantissa : ℚ) / (10 : ℚ) ^ v.scale * (10 : ℚ) ^ (v.scale + t)
        = (((v.mantissa * (10 : ℤ) ^ t) : ℤ) : ℚ) := by
      push_cast
      rw [pow_add]
      field_simp
      ring
    rw [h1, ratTrunc_intCast]
    push_cast
    rw [pow_add]
    field_simp
    ring
  · rw [if_neg hle]
    obtain ⟨u, hu⟩ : ∃ u, v.scale = s + u := ⟨v.scale - s, by omega⟩
    have h2 : (v.mantissa : ℚ) / (10 : ℚ) ^ v.scale * (10 : ℚ) ^ s
        = (v.mantissa : ℚ) / (10 : ℚ) ^ (v.scale - s) := by
      rw [hu]
      rw [show s + u - s = u from by omega]
      rw [pow_add]
      field_simp
      ring
    rw [h2, ← tdiv_pow10_ratTrunc]

/-- The digit counter with enough fuel counts digits: k is below the
count exactly when 10 to the k does not exceed n. -/
theorem digitsAux_iff :
    ∀ (fuel n k : Nat), n ≤ fuel → (k < Casts.digitsAux fuel n ↔ 10 ^ k ≤ n) := by
  intro fuel
  induction fuel with
  | zero =>
    intro n k h
    have hn : n = 0 := by omega
    subst hn
    simp [Casts.digitsAux]
  | succ fuel ih =>
    intro n k h
    by_cases h0 : n = 0
    · subst h0
      simp [Casts.digitsAux]
    · rw [show Casts.digitsAux (fuel + 1) n = Casts.digitsAux fuel (n / 10) + 1
        from by simp [Casts.digitsAux, h0]]
      cases k with
      | zero =>
        simp
        omega
      | succ j =>
        have hdiv : n / 10 < n := Nat.div_lt_self (by omega) (by norm_num)
        have hn10 : n / 10 ≤ fuel := by omega
        rw [Nat.succ_lt_succ_iff, ih (n / 10) j hn10, pow_succ]
        exact Nat.le_div_iff_mul_le (show 0 < 10 from by norm_num)

/-- k is below the digit count of n exactly when 10 to the k does not
exceed n. -/
theorem digitCount_iff (n k : Nat) : k < Casts.digitCount n ↔ 10 ^ k ≤ n :=
  digitsAux_iff n n k le_rfl

/-- C3: casting a decimal to DECIMAL(precision, scale) first rounds to
scale fractional digits with round-toward-zero (the rounded value is the
specification-side truncation of the rational value), the panic occurs
exactly when the rounded integer part reaches 10 to the
(precision - scale), that is when its digit count exceeds
precision - scale, and otherwise the truncated value is returned; in
particular 1234.5678 to DECIMAL(6,2) yields 1234.56 and to DECIMAL(6,3)
is fatal. -/
theorem cast_to_decimal_decimal_spec (v : Casts.Decimal) (precision scale : Nat)
    (_hps : scale ≤ precision) :
    ((Casts.round_dp_to_zero v scale).toRat = Casts.truncToScale v.toRat scale) ∧
    (∀ r, Casts.cast_to_decimal_decimal v precision scale = some r →
      r.toRat = Casts.truncToScale v.toRat scale) ∧
    (Casts.cast_to_decimal_decimal v precision scale = none ↔
      10 ^ (precision - scale) ≤
        (Casts.ratTrunc (Casts.truncToScale v.toRat scale)).natAbs) ∧
    (Casts.cast_to_decimal_decimal v precision scale = none ↔
      precision - scale < Casts.digitCount
        (Casts.ratTrunc (Casts.truncToScale v.toRat scale)).natAbs) ∧
    Casts.cast_to_decimal_decimal ⟨12345678, 4⟩ 6 2 = some ⟨123456, 2⟩ ∧
    Casts.cast_to_decimal_decimal ⟨12345678, 4⟩ 6 3 = none := by
  have hbridge : (Casts.round_dp_to_zero v scale).truncD.mantissa
      = Casts.ratTrunc (Casts.truncToScale v.toRat scale) := by
    rw [truncD_mantissa, toRat_round]
  have h3 : Casts.cast_to_decimal_decimal v precision scale = none ↔
      10 ^ (precision - scale) ≤
        (Casts.ratTrunc (Casts.truncToScale v.toRat scale)).natAbs := by
    simp only [Casts.cast_to_decimal_decimal]
    by_cases hc : precision - scale <
        Casts.digitCount (Casts.round_dp_to_zero v scale).truncD.mantissa.natAbs
    · rw [if_pos hc]
      constructor
      · intro _
        rw [← hbridge]
        exact (digitCount_iff _ _).mp hc
      · intro _
        rfl
    · rw [if_neg hc]
      constructor
      · intro h
        exact absurd h (by simp)
      · intro hge
        rw [← hbridge] at hge
        exact absurd ((digitCount_iff _ _).mpr hge) hc
  refine ⟨toRat_round v scale, ?_, h3, h3.trans (digitCount_iff _ _).symm,
    by rfl, by rfl⟩
  · intro r hr
    simp only [Casts.cast_to_decimal_decimal] at hr
    by_cases hc : precision - scale <
        Casts.digitCount (Casts.round_dp_to_zero v scale).truncD.mantissa.natAbs
    · rw [if_pos hc] at hr
      exact absurd hr (by simp)
    · rw [if_neg hc] at hr
      rw [← Option.some.inj hr]
      exact toRat_round v scale

/-- C3 witness: the two concrete casts of the specification, via the
general theorem. -/
theorem cast_to_decimal_decimal_spec_witness :
    Casts.cast_to_decimal_decimal ⟨12345678, 4⟩ 6 2 = some ⟨123456, 2⟩ ∧
    Casts.cast_to_decimal_decimal ⟨12345678, 4⟩ 6 3 = none :=
  ⟨(cast_to_decimal_decimal_spec ⟨12345678, 4⟩ 6 2 (by norm_num)).2.2.2.2.1,
    (cast_to_decimal_decimal_spec ⟨12345678, 4⟩ 6 3 (by norm_num)).2.2.2.2.2⟩

end Feldera
